import Mathlib

/-!
# Verification of the `mk` incremental build engine

A shallow embedding of the `mk` build tool (sources `src/mkfile.rs`,
`src/making.rs`) together with proofs of the specification claims.

Modelling conventions:

* Filesystem paths (`PathBuf`) are lists of components; the filesystem itself
  is an immutable snapshot tree `FSTree` (files and directories carrying a
  modification time, directories carrying named children).  Modification
  times are natural numbers.  Reading metadata of a path that does not
  resolve in the snapshot is the filesystem error (`StateAccessFailure`);
  in a consistent snapshot, `read_dir` of an existing directory and
  metadata of its listed children always succeed, so those error paths of
  the Rust code cannot fire in the model.
* External command execution (`sh -c cmd`) is an oracle `Env.runCmd`
  mapping the command string and the current filesystem to an exit status
  (`true` = success) and the filesystem it leaves behind.  The build state
  additionally carries a `log` of the commands that were actually spawned,
  in order; the log is pure instrumentation and never influences control
  flow.
* Rust's `Box<dyn Error>` failures are the inductive `MkError`, one
  constructor per `format!` site (plus `outOfFuel`, see below).
* The recursive `make` of `making.rs` has no termination guarantee on
  cyclic rule graphs (the spec flags unbounded recursion as an open
  question), so the embedding takes an explicit fuel parameter and fails
  with `outOfFuel` when it is exhausted; every claim is stated for
  executions in which fuel was not exhausted.
* Rust's `HashMap` is modelled by association lists whose `insert` removes
  the previous binding, preserving the observable lookup behaviour
  (last write wins).
-/

namespace Mk

/-! ## Target and rule model (`src/mkfile.rs`) -/

/-- A filesystem path, as a list of components (`PathBuf`). -/
abbrev FsPath := List String

/-- `enum ConcreteTarget { Deep(PathBuf), Shallow(PathBuf) }` -/
inductive ConcreteTarget where
  | Deep (path : FsPath)
  | Shallow (path : FsPath)
deriving DecidableEq

/-- `enum Target { Concrete(ConcreteTarget), Virtual(String) }` -/
inductive Target where
  | Concrete (c : ConcreteTarget)
  | Virtual (name : String)
deriving DecidableEq

/-- `pub type UpdateCommand = String;` -/
abbrev UpdateCommand := String

/-- `struct Rule { dependencies: Vec<Target>, commands: Vec<UpdateCommand> }` -/
structure Rule where
  dependencies : List Target
  commands : List UpdateCommand
deriving DecidableEq

/-- `ConcreteTarget::pathbuf`. -/
def ConcreteTarget.pathbuf : ConcreteTarget → FsPath
  | .Deep path => path
  | .Shallow path => path

/-! ## Filesystem snapshot

The filesystem the engine consults.  A mutual inductive (rather than a
nested `List`) so that all recursions over it are structural. -/

mutual
/-- A node of the filesystem snapshot: a file or a directory, each with its
own modification time. -/
inductive FSTree where
  | file (mtime : Nat)
  | dir (mtime : Nat) (children : FSChildren)

/-- Directory entries: a list of named filesystem nodes. -/
inductive FSChildren where
  | nil
  | cons (name : String) (child : FSTree) (rest : FSChildren)
end

deriving instance DecidableEq for FSTree, FSChildren

/-- Own modification time of a node (`metadata.modified()`). -/
def FSTree.mtime : FSTree → Nat
  | .file m => m
  | .dir m _ => m

/-- Look up a directory entry by name. -/
def FSChildren.lookup (name : String) : FSChildren → Option FSTree
  | .nil => none
  | .cons n c rest => if n = name then some c else FSChildren.lookup name rest

/-- Resolve a path in the snapshot to the node it denotes (the OS path
lookup behind `metadata()`); `none` when the path does not exist. -/
def resolve : FSTree → FsPath → Option FSTree
  | t, [] => some t
  | .file _, _ :: _ => none
  | .dir _ cs, n :: rest =>
    match cs.lookup n with
    | some c => resolve c rest
    | none => none

/-- `ConcreteTarget::exists` / `Path::exists`: the path resolves in the
snapshot. -/
def ConcreteTarget.existsIn (t : ConcreteTarget) (fs : FSTree) : Bool :=
  (resolve fs t.pathbuf).isSome

mutual
/-- The recursive timestamp `update_time` computes on a `Deep` node: a
file's own mtime; for a directory, the maximum of its own mtime and the
(deep) times of all children — the loop of `making.rs::update_time`. -/
def FSTree.deepTime : FSTree → Nat
  | .file m => m
  | .dir m cs => FSChildren.deepTimeFold m cs

/-- The `for entry in read_dir` loop: fold `max` of each child's deep time
into the accumulator `latest`. -/
def FSChildren.deepTimeFold : Nat → FSChildren → Nat
  | latest, .nil => latest
  | latest, .cons _ c rest => FSChildren.deepTimeFold (max latest c.deepTime) rest
end

/-! ## Errors -/

/-- The failures of `making.rs`, one constructor per `format!` site, plus
`stateAccess` for filesystem-metadata errors (`?` on `metadata()`) and
`outOfFuel` for the modelling fuel (see module header). -/
inductive MkError where
  | missingRule (name : String)
  | commandFailure (command : String)
  | targetNotProduced (target : ConcreteTarget)
  | stateAccess (target : ConcreteTarget)
  | outOfFuel
deriving DecidableEq

/-! ## Update-time computation (`making.rs::update_time`) -/

/-- `pub fn update_time(path: &ConcreteTarget) -> Result<SystemTime, _>`.

Reads the metadata of the target's path (failing when the path does not
resolve).  For a directory it starts from the directory's own mtime and,
only when the target is `Deep`, folds in the recursively computed times of
all entries; a `Shallow` directory target keeps just its own mtime.  For a
file it returns the file's mtime. -/
def update_time (fs : FSTree) (path : ConcreteTarget) : Except MkError Nat :=
  match resolve fs path.pathbuf with
  | none => .error (.stateAccess path)
  | some node =>
    match node, path with
    | .dir m cs, .Deep _ => .ok (FSChildren.deepTimeFold m cs)
    | .dir m _, .Shallow _ => .ok m
    | .file m, _ => .ok m

/-! ## Update state store (`making.rs::UpdateState`) -/

/-- `struct UpdateState { last_update: HashMap<ConcreteTarget, SystemTime> }`,
as an association list. -/
structure UpdateState where
  last_update : List (ConcreteTarget × Nat)
deriving DecidableEq

/-- `HashMap::get`. -/
def lookupLU (m : List (ConcreteTarget × Nat)) (k : ConcreteTarget) : Option Nat :=
  (m.find? (fun p => p.1 = k)).map (·.2)

/-- `HashMap::insert`: replace any previous binding of the key. -/
def insertLU (m : List (ConcreteTarget × Nat)) (k : ConcreteTarget) (v : Nat) :
    List (ConcreteTarget × Nat) :=
  m.filter (fun p => ¬ p.1 = k) ++ [(k, v)]

/-- `UpdateState::is_up_to_date`: `false` when the target has no record;
otherwise compute the current update time and compare it against the
record (current `≤` recorded means up to date). -/
def UpdateState.is_up_to_date (s : UpdateState) (fs : FSTree) (path : ConcreteTarget) :
    Except MkError Bool :=
  match lookupLU s.last_update path with
  | some last =>
    match update_time fs path with
    | .error e => .error e
    | .ok current => .ok (decide (current ≤ last))
  | none => .ok false

/-- `UpdateState::update_state`: recompute the current update time and
overwrite the target's record with it. -/
def UpdateState.update_state (s : UpdateState) (fs : FSTree) (path : ConcreteTarget) :
    Except MkError UpdateState :=
  match update_time fs path with
  | .error e => .error e
  | .ok current => .ok ⟨insertLU s.last_update path current⟩

/-! ## Rule store (`src/mkfile.rs::MkFile`) -/

/-- `struct MkFile { rules: HashMap<Target, Rule> }`, as an association
list. -/
structure MkFile where
  rules : List (Target × Rule)
deriving DecidableEq

/-- `HashMap::get` on the rule store. -/
def MkFile.find? (f : MkFile) (t : Target) : Option Rule :=
  (f.rules.find? (fun p => p.1 = t)).map (·.2)

/-- `MkFile::has_target`. -/
def MkFile.has_target (f : MkFile) (t : Target) : Bool :=
  (f.find? t).isSome

/-- `MkFile::dependencies`.  The Rust indexing panics on a missing target;
`make` only calls this under `has_target`, so the default `[]` is never
observed. -/
def MkFile.dependencies (f : MkFile) (t : Target) : List Target :=
  match f.find? t with
  | some r => r.dependencies
  | none => []

/-- `MkFile::commands` (same proviso as `MkFile.dependencies`). -/
def MkFile.commands (f : MkFile) (t : Target) : List UpdateCommand :=
  match f.find? t with
  | some r => r.commands
  | none => []

/-! ## Build engine (`making.rs::make`) -/

/-- The external world: running `sh -c command` on a filesystem yields an
exit status (`true` = success, i.e. `status.success()`) and the filesystem
the command leaves behind. -/
structure Env where
  runCmd : UpdateCommand → FSTree → Bool × FSTree

/-- The state threaded through `make`: the filesystem, the mutable
`UpdateState`, and the instrumentation log of every command actually
spawned, in spawn order. -/
structure BuildState where
  fs : FSTree
  upd : UpdateState
  log : List UpdateCommand
deriving DecidableEq

/-- The `needs_making` computation of `make` (lines 86–100 of
`making.rs`): any dependency changed, or the target is concrete and its
path does not exist, or the target is virtual and the dependency result
list is empty. -/
def needsMaking (fs : FSTree) (target : Target) (results : List Bool) : Bool :=
  let base := results.any (fun b => b)
  match target with
  | .Concrete path => base || !(path.existsIn fs)
  | .Virtual _ => base || results.isEmpty

/-- The command loop of `make` (lines 102–114): spawn each command in
order; stop at the first one whose exit status is a failure and report a
`commandFailure` naming it.  Every spawned command is appended to the
log, the failing one included. -/
def runCommands (env : Env) : List UpdateCommand → BuildState → Except MkError Unit × BuildState
  | [], s => (.ok (), s)
  | command :: rest, s =>
    let r := env.runCmd command s.fs
    let s' : BuildState := ⟨r.2, s.upd, s.log ++ [command]⟩
    if r.1 then runCommands env rest s'
    else (.error (.commandFailure command), s')

/-- The dependency loop of `make` (lines 80–84), abstracted over the
recursive call `mk`: make each dependency in declared order, stopping at
the first failure (`collect::<Result<Vec<_>, _>>`). -/
def makeDepsF (mk : Target → BuildState → Except MkError Bool × BuildState) :
    List Target → BuildState → Except MkError (List Bool) × BuildState
  | [], s => (.ok [], s)
  | d :: ds, s =>
    match mk d s with
    | (.error e, s') => (.error e, s')
    | (.ok b, s') =>
      match makeDepsF mk ds s' with
      | (.error e, s'') => (.error e, s'')
      | (.ok bs, s'') => (.ok (b :: bs), s'')

/-- `pub fn make(file, target, update_state) -> Result<bool, _>`, with
explicit fuel (consumed one unit per call depth) and explicit state
threading; errors return the state reached so far, matching the `&mut`
mutation that survives an `Err` in Rust. -/
def make (env : Env) (file : MkFile) : Nat → Target → BuildState →
    Except MkError Bool × BuildState
  | 0, _, s => (.error .outOfFuel, s)
  | fuel + 1, target, s =>
    if !file.has_target target then
      match target with
      | .Virtual name => (.error (.missingRule name), s)
      | .Concrete path =>
        match s.upd.is_up_to_date s.fs path with
        | .error e => (.error e, s)
        | .ok utd =>
          if !utd then
            match s.upd.update_state s.fs path with
            | .error e => (.error e, s)
            | .ok upd' => (.ok true, ⟨s.fs, upd', s.log⟩)
          else (.ok false, s)
    else
      match makeDepsF (make env file fuel) (file.dependencies target) s with
      | (.error e, s₁) => (.error e, s₁)
      | (.ok results, s₁) =>
        if needsMaking s₁.fs target results then
          match runCommands env (file.commands target) s₁ with
          | (.error e, s₂) => (.error e, s₂)
          | (.ok _, s₂) =>
            match target with
            | .Concrete path =>
              if path.existsIn s₂.fs then
                match s₂.upd.update_state s₂.fs path with
                | .error e => (.error e, s₂)
                | .ok upd' => (.ok true, ⟨s₂.fs, upd', s₂.log⟩)
              else (.error (.targetNotProduced path), s₂)
            | .Virtual _ => (.ok true, s₂)
        else
          match target with
          | .Concrete path =>
            match s₁.upd.update_state s₁.fs path with
            | .error e => (.error e, s₁)
            | .ok upd' => (.ok false, ⟨s₁.fs, upd', s₁.log⟩)
          | .Virtual _ => (.ok false, s₁)

/-- The dependency loop at a given fuel level: `makeDepsF` instantiated
with the recursive `make` call, as used by `make` at fuel `fuel + 1`. -/
def makeDeps (env : Env) (file : MkFile) (fuel : Nat) :
    List Target → BuildState → Except MkError (List Bool) × BuildState :=
  makeDepsF (make env file fuel)

/-! ## The rule parser (`MkFile::parse`)

`MkFile::parse` drives the regex `([^\s]+)\s*:([^\n]*)((\n[ \t]+[^\n]+)*)`
over the input with `captures_iter` and builds a rule per match.  The model
reimplements exactly that regex's leftmost, greedy-with-backtracking match
semantics on `List Char`:

* group 1 `[^\s]+` is a non-empty run of non-whitespace characters; the
  greedy run is preferred, and on failure of the following `\s* :` the run
  backtracks one character at a time, i.e. the rightmost `:` usable as the
  separator wins;
* `\s*` is a whitespace run (only non-empty when group 1 was maximal,
  since inside the run every character is non-whitespace);
* group 2 `[^\n]*` is the remainder of the line;
* group 3 `(\n[ \t]+[^\n]+)*` greedily takes every following line that
  starts with a space or tab and has at least one further character.

Whitespace `\s` is modelled as space, tab, newline and carriage return.
The scanners are written with an explicit fuel argument (so that they are
structurally recursive and evaluate by `rfl`/`decide`); every scanning
step consumes at least one character, so the input length always is
sufficient fuel, and the callers below pass exactly that. -/

/-- Character class `\s` (whitespace). -/
def isWs (c : Char) : Bool := c = ' ' || c = '\t' || c = '\n' || c = '\r'

/-- Character class `[ \t]`. -/
def isLineWs (c : Char) : Bool := c = ' ' || c = '\t'

/-- Split a list at its last `':'`, returning the parts before and after
it; `none` when it has no `':'`.  This is the backtracking of the greedy
group 1 `[^\s]+` against the following `:`: the rightmost usable
separator is preferred. -/
def splitAtLastColon : List Char → Option (List Char × List Char)
  | [] => none
  | c :: cs =>
    match splitAtLastColon cs with
    | some (b, a) => some (c :: b, a)
    | none => if c = ':' then some ([], cs) else none

/-- Match `([^\s]+)\s*:` at the head of the input: returns group 1 and the
input remaining after the `:`.  Preference order of the backtracking
engine: the maximal non-whitespace run as group 1 with `\s*` absorbing the
following whitespace run (a `:` must follow it); otherwise the run is
shortened, which forces `\s*` to be empty, so the run splits at its last
`:` (which must leave a non-empty group 1). -/
def matchHeader (cs : List Char) : Option (List Char × List Char) :=
  let run := cs.takeWhile (fun c => !isWs c)
  let rest := cs.dropWhile (fun c => !isWs c)
  match run with
  | [] => none
  | r0 :: rtail =>
    match rest.dropWhile isWs with
    | ':' :: rest3 => some (run, rest3)
    | _ =>
      match splitAtLastColon rtail with
      | some (b, a) => some (r0 :: b, a ++ rest)
      | none => none

/-- Match group 3 `(\n[ \t]+[^\n]+)*` greedily at the head of the input:
returns the matched text and the remaining input.  A repetition consumes a
newline plus a line that starts with a space or tab and has at least two
characters (`[ \t]+` needs one, `[^\n]+` one more; a space or tab also
matches `[^\n]`). -/
def matchContLines : Nat → List Char → List Char × List Char
  | 0, cs => ([], cs)
  | fuel + 1, cs =>
    match cs with
    | '\n' :: cs' =>
      let line := cs'.takeWhile (fun c => c != '\n')
      let rest := cs'.dropWhile (fun c => c != '\n')
      match line with
      | c1 :: _ :: _ =>
        if isLineWs c1 then
          let r := matchContLines fuel rest
          ('\n' :: (line ++ r.1), r.2)
        else ([], cs)
      | _ => ([], cs)
    | _ => ([], cs)

/-- Attempt the whole rule regex at the head of the input: on success,
the three capture groups and the input remaining after the match. -/
def matchAt (cs : List Char) : Option (List Char × List Char × List Char × List Char) :=
  match matchHeader cs with
  | none => none
  | some (g1, rest3) =>
    let g2 := rest3.takeWhile (fun c => c != '\n')
    let rest4 := rest3.dropWhile (fun c => c != '\n')
    let r := matchContLines rest4.length rest4
    some (g1, g2, r.1, r.2)

/-- `captures_iter`: scan left to right for the leftmost match, emit its
capture groups, and continue after the matched text; text that matches
nowhere is skipped one character at a time and produces nothing. -/
def scanRules : Nat → List Char → List (List Char × List Char × List Char)
  | 0, _ => []
  | _ + 1, [] => []
  | fuel + 1, c :: cs =>
    match matchAt (c :: cs) with
    | some (g1, g2, g3, rest) => (g1, g2, g3) :: scanRules fuel rest
    | none => scanRules fuel cs

/-- `str::split(sep)`: split at every separator, keeping empty pieces. -/
def splitOnChar (sep : Char) : Nat → List Char → List (List Char)
  | 0, cs => [cs]
  | fuel + 1, cs =>
    let tok := cs.takeWhile (fun c => c != sep)
    match cs.dropWhile (fun c => c != sep) with
    | [] => [tok]
    | _ :: rest => tok :: splitOnChar sep fuel rest

/-- `str::split_whitespace`: the maximal non-whitespace runs, in order. -/
def splitWhitespaceF : Nat → List Char → List (List Char)
  | 0, _ => []
  | _ + 1, [] => []
  | fuel + 1, c :: cs =>
    if isWs c then splitWhitespaceF fuel cs
    else (c :: cs.takeWhile (fun x => !isWs x)) ::
      splitWhitespaceF fuel (cs.dropWhile (fun x => !isWs x))

/-- `str::trim`: strip whitespace from both ends. -/
def trimChars (cs : List Char) : List Char :=
  ((cs.dropWhile isWs).reverse.dropWhile isWs).reverse

/-- `PathBuf::from`: a path is its `/`-separated components. -/
def parsePath (cs : List Char) : FsPath :=
  (splitOnChar '/' (cs.length + 1) cs).map (fun t => String.mk t)

/-- `Target::parse`: `$name` is virtual, `^path` a deep concrete target,
anything else a shallow concrete target. -/
def Target.parse (text : List Char) : Target :=
  match text with
  | '$' :: rest => .Virtual (String.mk rest)
  | '^' :: rest => .Concrete (.Deep (parsePath rest))
  | _ => .Concrete (.Shallow (parsePath text))

/-- `HashMap::insert` on the rule store: replace any previous binding. -/
def insertRule (rules : List (Target × Rule)) (t : Target) (r : Rule) :
    List (Target × Rule) :=
  rules.filter (fun p => ¬ p.1 = t) ++ [(t, r)]

/-- Build one rule from the capture groups of one regex match: the header
token parsed as the target, the rest of the header line split on
whitespace as the dependencies, the continuation text split on newlines
with every line trimmed and empty lines dropped as the commands. -/
def ruleOfCapture (cap : List Char × List Char × List Char) : Target × Rule :=
  (Target.parse cap.1,
    ⟨(splitWhitespaceF cap.2.1.length cap.2.1).map Target.parse,
      ((splitOnChar '\n' (cap.2.2.length + 1) cap.2.2).map
        (fun l => String.mk (trimChars l))).filter (fun s => s != "")⟩)

/-- `MkFile::parse`: run the regex over the full text and insert one rule
per match; it can only ever skip unmatched text, never fail. -/
def MkFile.parse (text : String) : MkFile :=
  ⟨(scanRules text.data.length text.data).foldl
    (fun rules cap =>
      let tr := ruleOfCapture cap
      insertRule rules tr.1 tr.2) []⟩

/-! ## Helper notions for the filesystem timestamp claims -/

/-- `MemChild n c cs`: the directory entries `cs` contain the node `c`
under the name `n`. -/
inductive MemChild : String → FSTree → FSChildren → Prop where
  | head (n : String) (c : FSTree) (rest : FSChildren) : MemChild n c (.cons n c rest)
  | tail (n' : String) (c' : FSTree) {n : String} {c : FSTree} {rest : FSChildren} :
      MemChild n c rest → MemChild n c (.cons n' c' rest)

/-- `Subnode t d`: `d` is `t` itself or a node somewhere in `t`'s
subtree. -/
inductive Subnode : FSTree → FSTree → Prop where
  | refl (t : FSTree) : Subnode t t
  | child {m : Nat} {cs : FSChildren} {n : String} {c d : FSTree} :
      MemChild n c cs → Subnode c d → Subnode (.dir m cs) d

theorem le_deepTimeFold : ∀ (cs : FSChildren) (acc : Nat), acc ≤ FSChildren.deepTimeFold acc cs
  | .nil, _ => Nat.le_refl _
  | .cons _ c rest, acc =>
    Nat.le_trans (Nat.le_max_left acc c.deepTime) (le_deepTimeFold rest _)

theorem deepTime_le_deepTimeFold {n : String} {c : FSTree} {cs : FSChildren}
    (h : MemChild n c cs) : ∀ acc : Nat, c.deepTime ≤ FSChildren.deepTimeFold acc cs := by
  induction h with
  | head n c rest =>
    intro acc
    exact Nat.le_trans (Nat.le_max_right acc c.deepTime) (le_deepTimeFold _ _)
  | tail n' c' _ ih =>
    intro acc
    exact ih _

theorem mtime_le_deepTime (t : FSTree) : t.mtime ≤ t.deepTime := by
  cases t with
  | file m => exact Nat.le_refl _
  | dir m cs => exact le_deepTimeFold cs m

/-- Coverage: the deep time bounds the mtime of every node of the
subtree. -/
theorem Subnode.mtime_le {t d : FSTree} (h : Subnode t d) :
    d.mtime ≤ t.deepTime := by
  induction h with
  | refl t => exact Mk.mtime_le_deepTime t
  | child hmem _ ih =>
    exact Nat.le_trans ih (deepTime_le_deepTimeFold hmem _)

theorem deepTimeFold_cases : ∀ (cs : FSChildren) (acc : Nat),
    FSChildren.deepTimeFold acc cs = acc ∨
    ∃ n c, MemChild n c cs ∧ FSChildren.deepTimeFold acc cs = c.deepTime
  | .nil, _ => Or.inl rfl
  | .cons n c rest, acc => by
    rcases deepTimeFold_cases rest (max acc c.deepTime) with h | ⟨n', c', hmem, h⟩
    · rcases Nat.le_total c.deepTime acc with hle | hle
      · exact Or.inl (by rw [FSChildren.deepTimeFold, h, Nat.max_eq_left hle])
      · refine Or.inr ⟨n, c, .head n c rest, ?_⟩
        rw [FSChildren.deepTimeFold, h, Nat.max_eq_right hle]
    · exact Or.inr ⟨n', c', .tail n c hmem, h⟩

theorem memChild_sizeOf_lt {n : String} {c : FSTree} {cs : FSChildren}
    (h : MemChild n c cs) : sizeOf c < sizeOf cs := by
  induction h with
  | head n c rest => simp; omega
  | tail n' c' _ ih => simp; omega

/-- Attainment: the deep time is the mtime of some node of the subtree. -/
theorem deepTime_attained (t : FSTree) : ∃ d, Subnode t d ∧ d.mtime = t.deepTime := by
  have key : ∀ k : Nat, ∀ t : FSTree, sizeOf t ≤ k → ∃ d, Subnode t d ∧ d.mtime = t.deepTime := by
    intro k
    induction k with
    | zero =>
      intro t ht
      cases t <;> simp at ht
    | succ k ih =>
      intro t ht
      cases t with
      | file m => exact ⟨.file m, .refl _, rfl⟩
      | dir m cs =>
        rcases deepTimeFold_cases cs m with h | ⟨n, c, hmem, h⟩
        · exact ⟨.dir m cs, .refl _, h.symm⟩
        · have hsz : sizeOf c ≤ k := by
            have h1 := memChild_sizeOf_lt hmem
            have h2 : sizeOf (FSTree.dir m cs) ≤ k + 1 := ht
            simp at h2
            omega
          rcases ih c hsz with ⟨d, hsub, hmt⟩
          refine ⟨d, .child hmem hsub, ?_⟩
          rw [hmt, FSTree.deepTime, h]
  exact key (sizeOf t) t (Nat.le_refl _)

/-! ## Claim C2 -/

/-- C2: for every concrete target and update state, `is_up_to_date`
returns `false` when the state holds no prior record for that exact
target; otherwise it computes the current modification time and returns
`true` iff that time is not strictly after the recorded one (equal
timestamps count as up to date). -/
theorem is_up_to_date_correct (s : UpdateState) (fs : FSTree) (path : ConcreteTarget) :
    (lookupLU s.last_update path = none → s.is_up_to_date fs path = .ok false) ∧
    (∀ last, lookupLU s.last_update path = some last →
      ∀ current, update_time fs path = .ok current →
        (s.is_up_to_date fs path = .ok true ↔ current ≤ last) ∧
        (s.is_up_to_date fs path = .ok false ↔ last < current)) := by
  constructor
  · intro h
    simp [UpdateState.is_up_to_date, h]
  · intro last hl current hc
    simp only [UpdateState.is_up_to_date, hl, hc]
    constructor
    · simp [decide_eq_true_iff]
    · simp only [Except.ok.injEq, decide_eq_false_iff_not]
      omega

/-- Witness for C2: a target recorded at time 5 whose current modification
time is also 5 is reported up to date, and an unrecorded target is not. -/
theorem is_up_to_date_correct_witness :
    (UpdateState.mk [(.Shallow ["a"], 5)]).is_up_to_date
        (.dir 0 (.cons "a" (.file 5) .nil)) (.Shallow ["a"]) = .ok true ∧
    (UpdateState.mk []).is_up_to_date
        (.dir 0 (.cons "a" (.file 5) .nil)) (.Shallow ["a"]) = .ok false := by
  constructor
  · exact ((is_up_to_date_correct ⟨[(.Shallow ["a"], 5)]⟩
      (.dir 0 (.cons "a" (.file 5) .nil)) (.Shallow ["a"])).2 5 rfl 5 rfl).1.mpr
      (Nat.le_refl 5)
  · exact (is_up_to_date_correct ⟨[]⟩
      (.dir 0 (.cons "a" (.file 5) .nil)) (.Shallow ["a"])).1 rfl

/-! ## Claim C3 -/

/-- C3: `update_time` on a `Shallow` target returns the modification time
of exactly the target's path, failing with a filesystem error when the
path is inaccessible; on a `Deep` target it returns the node's deep time,
which for a directory is the maximum of the directory's own modification
time and the recursively computed value of every direct child, so it
bounds (and is attained by) the modification time of every node of the
subtree.  The value is recomputed from the filesystem snapshot on every
call. -/
theorem update_time_correct (fs : FSTree) (p : FsPath) :
    (resolve fs p = none →
      update_time fs (.Shallow p) = .error (.stateAccess (.Shallow p)) ∧
      update_time fs (.Deep p) = .error (.stateAccess (.Deep p))) ∧
    (∀ node, resolve fs p = some node →
      update_time fs (.Shallow p) = .ok node.mtime ∧
      update_time fs (.Deep p) = .ok node.deepTime ∧
      (∀ d, Subnode node d → d.mtime ≤ node.deepTime) ∧
      (∃ d, Subnode node d ∧ d.mtime = node.deepTime) ∧
      (∀ m cs, node = .dir m cs →
        node.deepTime = FSChildren.deepTimeFold m cs ∧
        m ≤ node.deepTime ∧
        (∀ n c, MemChild n c cs → c.deepTime ≤ node.deepTime))) := by
  constructor
  · intro h
    constructor <;> simp [update_time, ConcreteTarget.pathbuf, h]
  · intro node h
    refine ⟨?_, ?_, fun d hd => hd.mtime_le, deepTime_attained node, ?_⟩
    · cases node <;> simp [update_time, ConcreteTarget.pathbuf, h, FSTree.mtime]
    · cases node <;> simp [update_time, ConcreteTarget.pathbuf, h, FSTree.deepTime]
    · rintro m cs rfl
      exact ⟨rfl, le_deepTimeFold cs m,
        fun n c hmem => deepTime_le_deepTimeFold hmem m⟩

/-- Witness for C3: in a snapshot where directory `d` (mtime 2) contains a
file of mtime 9, the deep time of `d` is 9, its shallow time is 2, and an
absent path is a filesystem error. -/
theorem update_time_correct_witness :
    update_time (.dir 1 (.cons "d" (.dir 2 (.cons "f" (.file 9) .nil)) .nil)) (.Deep ["d"]) =
      .ok 9 ∧
    update_time (.dir 1 (.cons "d" (.dir 2 (.cons "f" (.file 9) .nil)) .nil)) (.Shallow ["d"]) =
      .ok 2 ∧
    update_time (.dir 1 (.cons "d" (.dir 2 (.cons "f" (.file 9) .nil)) .nil)) (.Shallow ["x"]) =
      .error (.stateAccess (.Shallow ["x"])) := by
  refine ⟨?_, ?_, ?_⟩
  · exact (((update_time_correct (.dir 1 (.cons "d" (.dir 2 (.cons "f" (.file 9) .nil)) .nil))
      ["d"]).2 (.dir 2 (.cons "f" (.file 9) .nil)) rfl).2.1).trans rfl
  · exact (((update_time_correct (.dir 1 (.cons "d" (.dir 2 (.cons "f" (.file 9) .nil)) .nil))
      ["d"]).2 (.dir 2 (.cons "f" (.file 9) .nil)) rfl).1).trans rfl
  · exact ((update_time_correct (.dir 1 (.cons "d" (.dir 2 (.cons "f" (.file 9) .nil)) .nil))
      ["x"]).1 rfl).1

/-! ## Claim C8 -/

theorem insertRule_length_le (rules : List (Target × Rule)) (t : Target) (r : Rule) :
    (insertRule rules t r).length ≤ rules.length + 1 := by
  simp only [insertRule, List.length_append, List.length_cons, List.length_nil]
  have := List.length_filter_le (fun p : Target × Rule => decide (¬ p.1 = t)) rules
  omega

theorem parse_foldl_length_le (caps : List (List Char × List Char × List Char)) :
    ∀ rules : List (Target × Rule),
      (caps.foldl (fun rules cap => let tr := ruleOfCapture cap; insertRule rules tr.1 tr.2)
          rules).length ≤ rules.length + caps.length := by
  induction caps with
  | nil => intro rules; simp
  | cons cap caps ih =>
    intro rules
    calc (List.foldl _ (insertRule rules (ruleOfCapture cap).1 (ruleOfCapture cap).2)
            caps).length
        ≤ (insertRule rules (ruleOfCapture cap).1 (ruleOfCapture cap).2).length + caps.length :=
          ih _
      _ ≤ rules.length + 1 + caps.length := by
          have := insertRule_length_le rules (ruleOfCapture cap).1 (ruleOfCapture cap).2
          omega
      _ = rules.length + (cap :: caps).length := by simp; omega

/-- C8: the rule parser is a total function that never reports a syntax
error: every regex match contributes at most one rule (so malformed text
yields fewer rules, never a failure), and text in which the rule pattern
matches nowhere parses to zero rules. -/
theorem parse_skips_instead_of_failing (text : String) :
    (MkFile.parse text).rules.length ≤ (scanRules text.data.length text.data).length ∧
    (scanRules text.data.length text.data = [] → (MkFile.parse text).rules = []) := by
  constructor
  · have h := parse_foldl_length_le (scanRules text.data.length text.data) []
    simpa [MkFile.parse] using h
  · intro h
    simp only [MkFile.parse, h, List.foldl_nil]

/-- Witness for C8: entirely non-matching text parses to zero rules. -/
theorem parse_skips_instead_of_failing_witness :
    (MkFile.parse "just some words with no separator").rules = [] :=
  (parse_skips_instead_of_failing "just some words with no separator").2 rfl

/-! ## Helper lemmas about the build engine -/

theorem update_time_ok_of_exists {fs : FSTree} {path : ConcreteTarget}
    (h : path.existsIn fs = true) : ∃ t, update_time fs path = .ok t := by
  unfold ConcreteTarget.existsIn at h
  cases hr : resolve fs path.pathbuf with
  | none => rw [hr] at h; simp at h
  | some node => cases node <;> cases path <;> simp [update_time, hr]

theorem update_state_ok_of_exists {fs : FSTree} {path : ConcreteTarget} (s : UpdateState)
    (h : path.existsIn fs = true) : ∃ s', s.update_state fs path = .ok s' := by
  rcases update_time_ok_of_exists h with ⟨t, ht⟩
  refine ⟨⟨insertLU s.last_update path t⟩, ?_⟩
  simp [UpdateState.update_state, ht]

theorem runCommands_upd (env : Env) : ∀ (cmds : List UpdateCommand) (s : BuildState),
    ((runCommands env cmds s).2).upd = s.upd
  | [], _ => rfl
  | c :: rest, s => by
    simp only [runCommands]
    split
    · exact runCommands_upd env rest _
    · rfl

theorem runCommands_error_spec (env : Env) :
    ∀ (cmds : List UpdateCommand) (s s' : BuildState) (e : MkError),
      runCommands env cmds s = (.error e, s') →
      ∃ pre c post, cmds = pre ++ c :: post ∧ e = .commandFailure c ∧
        s'.log = s.log ++ pre ++ [c]
  | [], s, s', e, h => by simp [runCommands] at h
  | cmd :: rest, s, s', e, h => by
    simp only [runCommands] at h
    split at h
    · rcases runCommands_error_spec env rest _ s' e h with ⟨pre, c, post, h1, h2, h3⟩
      exact ⟨cmd :: pre, c, post, by simp [h1], h2, by simp [h3]⟩
    · simp only [Prod.mk.injEq, Except.error.injEq] at h
      obtain ⟨h1, h2⟩ := h
      exact ⟨[], cmd, rest, rfl, h1.symm, by rw [← h2]; simp⟩

theorem runCommands_ok_log (env : Env) :
    ∀ (cmds : List UpdateCommand) (s s' : BuildState) (u : Unit),
      runCommands env cmds s = (.ok u, s') → s'.log = s.log ++ cmds
  | [], s, s', _, h => by
    simp only [runCommands, Prod.mk.injEq] at h
    simp [← h.2]
  | cmd :: rest, s, s', u, h => by
    simp only [runCommands] at h
    split at h
    · have := runCommands_ok_log env rest _ s' u h
      simp [this]
    · simp at h

theorem makeDepsF_ok_length (mk : Target → BuildState → Except MkError Bool × BuildState) :
    ∀ (ds : List Target) (s s' : BuildState) (rs : List Bool),
      makeDepsF mk ds s = (.ok rs, s') → rs.length = ds.length
  | [], s, s', rs, h => by
    simp only [makeDepsF, Prod.mk.injEq, Except.ok.injEq] at h
    simp [← h.1]
  | d :: ds, s, s', rs, h => by
    simp only [makeDepsF] at h
    cases hm : mk d s with
    | mk r1 st1 =>
    rw [hm] at h
    cases r1 with
    | error e => simp at h
    | ok b =>
      simp only at h
      cases hd : makeDepsF mk ds st1 with
      | mk r2 st2 =>
      rw [hd] at h
      cases r2 with
      | error e => simp at h
      | ok bs =>
        simp only [Prod.mk.injEq, Except.ok.injEq] at h
        have := makeDepsF_ok_length mk ds st1 st2 bs hd
        simp [← h.1, this]

theorem makeDepsF_append_ok (mk : Target → BuildState → Except MkError Bool × BuildState) :
    ∀ (ds₁ ds₂ : List Target) (s s₁ : BuildState) (rs : List Bool),
      makeDepsF mk ds₁ s = (.ok rs, s₁) →
      makeDepsF mk (ds₁ ++ ds₂) s =
        (match makeDepsF mk ds₂ s₁ with
         | (.error e, s₂) => (.error e, s₂)
         | (.ok rs₂, s₂) => (.ok (rs ++ rs₂), s₂))
  | [], ds₂, s, s₁, rs, h => by
    simp only [makeDepsF, Prod.mk.injEq, Except.ok.injEq] at h
    obtain ⟨h1, h2⟩ := h
    subst h2
    simp only [List.nil_append, ← h1, List.nil_append]
    split <;> simp_all
  | d :: ds, ds₂, s, s₁, rs, h => by
    simp only [makeDepsF] at h
    cases hm : mk d s with
    | mk r1 st1 =>
    rw [hm] at h
    cases r1 with
    | error e => simp at h
    | ok b =>
      simp only at h
      cases hd : makeDepsF mk ds st1 with
      | mk r2 st2 =>
      rw [hd] at h
      cases r2 with
      | error e => simp at h
      | ok bs =>
        simp only [Prod.mk.injEq, Except.ok.injEq] at h
        obtain ⟨h1, h2⟩ := h
        subst h2
        have ih := makeDepsF_append_ok mk ds ds₂ st1 st2 bs hd
        simp only [List.cons_append, makeDepsF, hm]
        simp only [List.append_eq]
        rw [ih]
        cases hx : makeDepsF mk ds₂ st2 with
        | mk r3 st3 =>
        cases r3 <;> simp [← h1]

theorem lookupLU_insertLU (k : ConcreteTarget) (v : Nat) :
    ∀ m : List (ConcreteTarget × Nat), lookupLU (insertLU m k v) k = some v := by
  intro m
  induction m with
  | nil => simp [lookupLU, insertLU, List.find?]
  | cons p m ih =>
    by_cases hp : p.1 = k <;>
      simp_all [lookupLU, insertLU, List.filter, List.find?]

/-! ## Claim C1 -/

/-- C1: for a target present in the rule store, once all its dependencies
have been made successfully, `make` computes `needs_making` as true iff at
least one dependency reported changed, or the target is concrete and its
path does not currently exist, or the target is virtual with an empty
dependency-result list (which has exactly one entry per declared
dependency) — and on success `make` returns exactly that value as its
"changed" result. -/
theorem make_returns_needsMaking (env : Env) (file : MkFile) (fuel : Nat) (target : Target)
    (s s₁ s' : BuildState) (rs : List Bool) (b : Bool)
    (hT : file.has_target target = true)
    (hD : makeDeps env file fuel (file.dependencies target) s = (.ok rs, s₁))
    (hM : make env file (fuel + 1) target s = (.ok b, s')) :
    b = needsMaking s₁.fs target rs ∧
    needsMaking s₁.fs target rs =
      (rs.any (fun x => x) ||
        match target with
        | .Concrete path => !(path.existsIn s₁.fs)
        | .Virtual _ => rs.isEmpty) ∧
    rs.length = (file.dependencies target).length := by
  refine ⟨?_, ?_, makeDepsF_ok_length _ _ _ _ _ hD⟩
  · unfold makeDeps at hD
    simp only [make, hT, Bool.not_true, Bool.false_eq_true, if_false] at hM
    rw [hD] at hM
    simp only at hM
    cases hN : needsMaking s₁.fs target rs with
    | false =>
      rw [hN] at hM
      simp only [Bool.false_eq_true, if_false] at hM
      cases target with
      | Concrete path =>
        simp only at hM
        cases hS : s₁.upd.update_state s₁.fs path <;> rw [hS] at hM <;>
          simp_all
      | Virtual name => simp_all
    | true =>
      rw [hN] at hM
      simp only [if_true] at hM
      cases hR : runCommands env (file.commands target) s₁ with
      | mk r₂ s₂ =>
      rw [hR] at hM
      cases r₂ with
      | error e => simp_all
      | ok u =>
        cases target with
        | Concrete path =>
          simp only at hM
          cases hE : path.existsIn s₂.fs <;> rw [hE] at hM
          · simp_all
          · simp only [if_true] at hM
            cases hS : s₂.upd.update_state s₂.fs path <;> rw [hS] at hM <;>
              simp_all
        | Virtual name => simp_all
  · cases target <;> simp [needsMaking]

/-- Witness for C1: a dependency-less virtual target needs making, and a
successful `make` reports exactly that. -/
theorem make_returns_needsMaking_witness :
    true = needsMaking (FSTree.dir 0 .nil) (.Virtual "all") [] ∧
    needsMaking (FSTree.dir 0 .nil) (.Virtual "all") [] =
      (List.any [] (fun x => x) ||
        match (Target.Virtual "all" : Target) with
        | .Concrete path => !(path.existsIn (FSTree.dir 0 .nil))
        | .Virtual _ => List.isEmpty ([] : List Bool)) ∧
    List.length ([] : List Bool) =
      ((MkFile.mk [(.Virtual "all", ⟨[], ["touch it"]⟩)]).dependencies (.Virtual "all")).length :=
  make_returns_needsMaking ⟨fun _ fs => (true, fs)⟩
    ⟨[(.Virtual "all", ⟨[], ["touch it"]⟩)]⟩ 0 (.Virtual "all")
    ⟨.dir 0 .nil, ⟨[]⟩, []⟩ ⟨.dir 0 .nil, ⟨[]⟩, []⟩
    ⟨.dir 0 .nil, ⟨[]⟩, ["touch it"]⟩ [] true hT_w hD_w hM_w
  where
    hT_w : (MkFile.mk [(.Virtual "all", ⟨[], ["touch it"]⟩)]).has_target (.Virtual "all") =
      true := rfl
    hD_w : makeDeps ⟨fun _ fs => (true, fs)⟩ ⟨[(.Virtual "all", ⟨[], ["touch it"]⟩)]⟩ 0
      ((MkFile.mk [(.Virtual "all", ⟨[], ["touch it"]⟩)]).dependencies (.Virtual "all"))
      ⟨.dir 0 .nil, ⟨[]⟩, []⟩ = (.ok [], ⟨.dir 0 .nil, ⟨[]⟩, []⟩) := rfl
    hM_w : make ⟨fun _ fs => (true, fs)⟩ ⟨[(.Virtual "all", ⟨[], ["touch it"]⟩)]⟩ 1
      (.Virtual "all") ⟨.dir 0 .nil, ⟨[]⟩, []⟩ =
      (.ok true, ⟨.dir 0 .nil, ⟨[]⟩, ["touch it"]⟩) := rfl

/-! ## Claim C4 -/

/-- Full case analysis of a successful `make` on a concrete target with no
rule (shared by the leaf-behaviour and idempotence claims). -/
theorem make_ruleless_concrete_spec (env : Env) (file : MkFile) (fuel : Nat)
    (path : ConcreteTarget) (s s' : BuildState) (b : Bool)
    (hT : file.has_target (.Concrete path) = false)
    (hM : make env file (fuel + 1) (.Concrete path) s = (.ok b, s')) :
    s'.log = s.log ∧ s'.fs = s.fs ∧
    s.upd.is_up_to_date s.fs path = .ok (!b) ∧
    (b = true → ∃ upd', s.upd.update_state s.fs path = .ok upd' ∧
      s' = ⟨s.fs, upd', s.log⟩) ∧
    (b = false → s' = s) := by
  simp only [make, hT, Bool.not_false, if_true] at hM
  cases hU : s.upd.is_up_to_date s.fs path <;> rw [hU] at hM
  · simp at hM
  · rename_i utd
    cases utd with
    | true => simp_all
    | false =>
      simp only [Bool.not_false, if_true] at hM
      cases hS : s.upd.update_state s.fs path <;> rw [hS] at hM
      · simp at hM
      · simp only [Prod.mk.injEq, Except.ok.injEq] at hM
        obtain ⟨hb, hs⟩ := hM
        subst hb
        refine ⟨by rw [← hs], by rw [← hs], by simp [hU], ?_, by simp⟩
        intro _
        exact ⟨_, rfl, hs.symm⟩

/-- C4: a concrete target absent from the rule store is a raw leaf: on
success, `make` ran no command (log and filesystem untouched), the
"changed" result is the negation of the up-to-dateness check, a changed
leaf has its state recorded, and an unchanged leaf leaves the state
untouched. -/
theorem ruleless_concrete_leaf (env : Env) (file : MkFile) (fuel : Nat)
    (path : ConcreteTarget) (s s' : BuildState) (b : Bool)
    (hT : file.has_target (.Concrete path) = false)
    (hM : make env file (fuel + 1) (.Concrete path) s = (.ok b, s')) :
    s'.log = s.log ∧ s'.fs = s.fs ∧
    s.upd.is_up_to_date s.fs path = .ok (!b) ∧
    (b = true → ∃ upd', s.upd.update_state s.fs path = .ok upd' ∧
      s' = ⟨s.fs, upd', s.log⟩) ∧
    (b = false → s' = s) :=
  make_ruleless_concrete_spec env file fuel path s s' b hT hM

/-- Witness for C4: an unrecorded ruleless concrete leaf reports
changed = true, records its state, and runs nothing. -/
theorem ruleless_concrete_leaf_witness :
    ((⟨.dir 0 (.cons "a" (.file 5) .nil), ⟨[]⟩, []⟩ : BuildState)).upd.is_up_to_date
        (.dir 0 (.cons "a" (.file 5) .nil)) (.Shallow ["a"]) = .ok (!true) ∧
    (make ⟨fun _ fs => (true, fs)⟩ ⟨[]⟩ 1 (.Concrete (.Shallow ["a"]))
        ⟨.dir 0 (.cons "a" (.file 5) .nil), ⟨[]⟩, []⟩).2.log = [] :=
  ⟨(ruleless_concrete_leaf ⟨fun _ fs => (true, fs)⟩ ⟨[]⟩ 0 (.Shallow ["a"])
      ⟨.dir 0 (.cons "a" (.file 5) .nil), ⟨[]⟩, []⟩
      ⟨.dir 0 (.cons "a" (.file 5) .nil), ⟨[(.Shallow ["a"], 5)]⟩, []⟩ true rfl rfl).2.2.1,
    (ruleless_concrete_leaf ⟨fun _ fs => (true, fs)⟩ ⟨[]⟩ 0 (.Shallow ["a"])
      ⟨.dir 0 (.cons "a" (.file 5) .nil), ⟨[]⟩, []⟩
      ⟨.dir 0 (.cons "a" (.file 5) .nil), ⟨[(.Shallow ["a"], 5)]⟩, []⟩ true rfl rfl).1⟩

/-- A failure while making the dependencies of a rule target propagates
unchanged out of `make`. -/
theorem make_deps_error (env : Env) (file : MkFile) (fuel : Nat) (target : Target)
    (s s₁ : BuildState) (e : MkError)
    (hT : file.has_target target = true)
    (hD : makeDeps env file fuel (file.dependencies target) s = (.error e, s₁)) :
    make env file (fuel + 1) target s = (.error e, s₁) := by
  unfold makeDeps at hD
  simp only [make, hT, Bool.not_true, Bool.false_eq_true, if_false]
  rw [hD]

/-! ## Claim C5 -/

/-- C5: when `make` rebuilds a target that has a rule, the commands run
one by one in declared order; the moment one exits with failure, the
whole build aborts with a `commandFailure` naming that command: `make`
returns exactly that error, the log shows that precisely the preceding
commands and the failing one ran, and the commands after it never ran. -/
theorem command_failure_aborts (env : Env) (file : MkFile) (fuel : Nat) (target : Target)
    (s s₁ s₂ : BuildState) (rs : List Bool) (e : MkError)
    (hT : file.has_target target = true)
    (hD : makeDeps env file fuel (file.dependencies target) s = (.ok rs, s₁))
    (hN : needsMaking s₁.fs target rs = true)
    (hR : runCommands env (file.commands target) s₁ = (.error e, s₂)) :
    make env file (fuel + 1) target s = (.error e, s₂) ∧
    ∃ pre c post, file.commands target = pre ++ c :: post ∧
      e = .commandFailure c ∧ s₂.log = s₁.log ++ pre ++ [c] := by
  constructor
  · unfold makeDeps at hD
    simp only [make, hT, Bool.not_true, Bool.false_eq_true, if_false]
    rw [hD]
    simp only
    rw [hN]
    simp only [if_true]
    rw [hR]
  · exact runCommands_error_spec env _ _ _ _ hR

/-- Witness for C5: with a rule whose commands are `["boom", "later"]` and
a shell in which every command fails, the build aborts with
`commandFailure "boom"`, only `"boom"` having been spawned. -/
theorem command_failure_aborts_witness :
    make ⟨fun _ fs => (false, fs)⟩ ⟨[(.Virtual "all", ⟨[], ["boom", "later"]⟩)]⟩ 1
        (.Virtual "all") ⟨.dir 0 .nil, ⟨[]⟩, []⟩ =
      (.error (.commandFailure "boom"), ⟨.dir 0 .nil, ⟨[]⟩, ["boom"]⟩) ∧
    ∃ pre c post,
      (MkFile.mk [(.Virtual "all", ⟨[], ["boom", "later"]⟩)]).commands (.Virtual "all") =
        pre ++ c :: post ∧
      MkError.commandFailure "boom" = .commandFailure c ∧
      (BuildState.mk (.dir 0 .nil) ⟨[]⟩ ["boom"]).log =
        (BuildState.mk (.dir 0 .nil) ⟨[]⟩ []).log ++ pre ++ [c] :=
  command_failure_aborts ⟨fun _ fs => (false, fs)⟩
    ⟨[(.Virtual "all", ⟨[], ["boom", "later"]⟩)]⟩ 0 (.Virtual "all")
    ⟨.dir 0 .nil, ⟨[]⟩, []⟩ ⟨.dir 0 .nil, ⟨[]⟩, []⟩ ⟨.dir 0 .nil, ⟨[]⟩, ["boom"]⟩
    [] (.commandFailure "boom") rfl rfl rfl rfl

/-! ## Claim C6 -/

/-- C6: a virtual target absent from the rule store makes `make` fail at
once with a `missingRule` error carrying the target's name, both when it
is the requested target and when it is reached as a declared dependency of
a target that does have a rule (the error aborting the enclosing build). -/
theorem missing_virtual_rule_aborts (env : Env) (file : MkFile) (fuel : Nat) (name : String)
    (hT : file.has_target (.Virtual name) = false) :
    (∀ s : BuildState,
      make env file (fuel + 1) (.Virtual name) s = (.error (.missingRule name), s)) ∧
    (∀ (target : Target) (ds₁ ds₂ : List Target) (s₀ s₁ : BuildState) (rs : List Bool),
      file.has_target target = true →
      file.dependencies target = ds₁ ++ .Virtual name :: ds₂ →
      makeDeps env file (fuel + 1) ds₁ s₀ = (.ok rs, s₁) →
      make env file (fuel + 2) target s₀ = (.error (.missingRule name), s₁)) := by
  have direct : ∀ s : BuildState,
      make env file (fuel + 1) (.Virtual name) s = (.error (.missingRule name), s) := by
    intro s
    simp [make, hT]
  refine ⟨direct, ?_⟩
  intro target ds₁ ds₂ s₀ s₁ rs hT' hdeps hD1
  unfold makeDeps at hD1
  have happ := makeDepsF_append_ok (make env file (fuel + 1)) ds₁ (Target.Virtual name :: ds₂)
    s₀ s₁ rs hD1
  have hcons : makeDepsF (make env file (fuel + 1)) (Target.Virtual name :: ds₂) s₁ =
      (.error (.missingRule name), s₁) := by
    simp only [makeDepsF, direct s₁]
  rw [hcons] at happ
  simp only at happ
  apply make_deps_error env file (fuel + 1) target s₀ s₁ (.missingRule name) hT'
  unfold makeDeps
  rw [hdeps, happ]

/-- Witness for C6: requesting the undeclared `$missing` directly fails,
and so does requesting `$all` whose only dependency is `$missing`. -/
theorem missing_virtual_rule_aborts_witness :
    make ⟨fun _ fs => (true, fs)⟩ ⟨[(.Virtual "all", ⟨[.Virtual "missing"], []⟩)]⟩ 1
        (.Virtual "missing") ⟨.dir 0 .nil, ⟨[]⟩, []⟩ =
      (.error (.missingRule "missing"), ⟨.dir 0 .nil, ⟨[]⟩, []⟩) ∧
    make ⟨fun _ fs => (true, fs)⟩ ⟨[(.Virtual "all", ⟨[.Virtual "missing"], []⟩)]⟩ 2
        (.Virtual "all") ⟨.dir 0 .nil, ⟨[]⟩, []⟩ =
      (.error (.missingRule "missing"), ⟨.dir 0 .nil, ⟨[]⟩, []⟩) :=
  ⟨(missing_virtual_rule_aborts ⟨fun _ fs => (true, fs)⟩
      ⟨[(.Virtual "all", ⟨[.Virtual "missing"], []⟩)]⟩ 0 "missing" rfl).1
      ⟨.dir 0 .nil, ⟨[]⟩, []⟩,
    (missing_virtual_rule_aborts ⟨fun _ fs => (true, fs)⟩
      ⟨[(.Virtual "all", ⟨[.Virtual "missing"], []⟩)]⟩ 0 "missing" rfl).2
      (.Virtual "all") [] [] ⟨.dir 0 .nil, ⟨[]⟩, []⟩ ⟨.dir 0 .nil, ⟨[]⟩, []⟩ []
      rfl rfl rfl⟩

/-! ## Claim C7 -/

/-- C7: after a rebuilt rule's commands all succeed, a concrete target is
checked for existence — failing with `targetNotProduced` when its path
still does not exist, and having its state recorded when it does — while
a virtual target records nothing (the update state is exactly as the
dependency phase left it). -/
theorem rebuild_postcondition (env : Env) (file : MkFile) (fuel : Nat) (target : Target)
    (s s₁ s₂ : BuildState) (rs : List Bool) (u : Unit)
    (hT : file.has_target target = true)
    (hD : makeDeps env file fuel (file.dependencies target) s = (.ok rs, s₁))
    (hN : needsMaking s₁.fs target rs = true)
    (hR : runCommands env (file.commands target) s₁ = (.ok u, s₂)) :
    (∀ path, target = .Concrete path →
      (path.existsIn s₂.fs = false →
        make env file (fuel + 1) target s = (.error (.targetNotProduced path), s₂)) ∧
      (path.existsIn s₂.fs = true →
        ∃ upd', s₂.upd.update_state s₂.fs path = .ok upd' ∧
          make env file (fuel + 1) target s = (.ok true, ⟨s₂.fs, upd', s₂.log⟩))) ∧
    (∀ name, target = .Virtual name →
      make env file (fuel + 1) target s = (.ok true, s₂) ∧ s₂.upd = s₁.upd) := by
  unfold makeDeps at hD
  constructor
  · rintro path rfl
    constructor
    · intro hE
      simp only [make, hT, Bool.not_true, Bool.false_eq_true, if_false]
      rw [hD]
      simp only
      rw [hN]
      simp only [if_true]
      rw [hR]
      simp only
      rw [hE]
      simp only [Bool.false_eq_true, if_false]
    · intro hE
      rcases update_state_ok_of_exists s₂.upd hE with ⟨upd', hS⟩
      refine ⟨upd', hS, ?_⟩
      simp only [make, hT, Bool.not_true, Bool.false_eq_true, if_false]
      rw [hD]
      simp only
      rw [hN]
      simp only [if_true]
      rw [hR]
      simp only
      rw [hE]
      simp only [if_true]
      rw [hS]
  · rintro name rfl
    refine ⟨?_, ?_⟩
    · simp only [make, hT, Bool.not_true, Bool.false_eq_true, if_false]
      rw [hD]
      simp only
      rw [hN]
      simp only [if_true]
      rw [hR]
    · have h := runCommands_upd env (file.commands (Target.Virtual name)) s₁
      rw [hR] at h
      exact h

/-- Witness for C7: a rebuilt concrete target whose command does create
the path succeeds with its state recorded, and one whose command does not
fails with `targetNotProduced`. -/
theorem rebuild_postcondition_witness :
    (∃ upd',
      (UpdateState.mk []).update_state (.dir 0 (.cons "out" (.file 3) .nil)) (.Shallow ["out"]) =
        .ok upd' ∧
      make ⟨fun _ _ => (true, .dir 0 (.cons "out" (.file 3) .nil))⟩
          ⟨[(.Concrete (.Shallow ["out"]), ⟨[], ["mk out"]⟩)]⟩ 1
          (.Concrete (.Shallow ["out"])) ⟨.dir 0 .nil, ⟨[]⟩, []⟩ =
        (.ok true, ⟨.dir 0 (.cons "out" (.file 3) .nil), upd', ["mk out"]⟩)) ∧
    make ⟨fun _ fs => (true, fs)⟩ ⟨[(.Concrete (.Shallow ["out"]), ⟨[], ["noop"]⟩)]⟩ 1
        (.Concrete (.Shallow ["out"])) ⟨.dir 0 .nil, ⟨[]⟩, []⟩ =
      (.error (.targetNotProduced (.Shallow ["out"])), ⟨.dir 0 .nil, ⟨[]⟩, ["noop"]⟩) :=
  ⟨((rebuild_postcondition ⟨fun _ _ => (true, .dir 0 (.cons "out" (.file 3) .nil))⟩
      ⟨[(.Concrete (.Shallow ["out"]), ⟨[], ["mk out"]⟩)]⟩ 0 (.Concrete (.Shallow ["out"]))
      ⟨.dir 0 .nil, ⟨[]⟩, []⟩ ⟨.dir 0 .nil, ⟨[]⟩, []⟩
      ⟨.dir 0 (.cons "out" (.file 3) .nil), ⟨[]⟩, ["mk out"]⟩ [] () rfl rfl rfl rfl).1
      (.Shallow ["out"]) rfl).2 rfl,
    ((rebuild_postcondition ⟨fun _ fs => (true, fs)⟩
      ⟨[(.Concrete (.Shallow ["out"]), ⟨[], ["noop"]⟩)]⟩ 0 (.Concrete (.Shallow ["out"]))
      ⟨.dir 0 .nil, ⟨[]⟩, []⟩ ⟨.dir 0 .nil, ⟨[]⟩, []⟩
      ⟨.dir 0 .nil, ⟨[]⟩, ["noop"]⟩ [] () rfl rfl rfl rfl).1
      (.Shallow ["out"]) rfl).1 rfl⟩

/-! ## Claim C9 -/

theorem update_state_inv {s : UpdateState} {fs : FSTree} {path : ConcreteTarget}
    {upd' : UpdateState} (h : s.update_state fs path = .ok upd') :
    ∃ cur, update_time fs path = .ok cur ∧
      upd' = ⟨insertLU s.last_update path cur⟩ := by
  unfold UpdateState.update_state at h
  cases hu : update_time fs path <;> rw [hu] at h
  · simp at h
  · simp only [Except.ok.injEq] at h
    exact ⟨_, rfl, h.symm⟩

/-- C9: for a ruleless concrete leaf target, a second `make` on the state
left by any successful `make` with an unchanged filesystem reports
changed = false and leaves the state untouched (so the leaf reports
changed = true at most once, and changed = false thereafter). -/
theorem ruleless_concrete_idempotent (env : Env) (file : MkFile) (f₁ f₂ : Nat)
    (path : ConcreteTarget) (s s' : BuildState) (b : Bool)
    (hT : file.has_target (.Concrete path) = false)
    (h₁ : make env file (f₁ + 1) (.Concrete path) s = (.ok b, s')) :
    make env file (f₂ + 1) (.Concrete path) s' = (.ok false, s') := by
  obtain ⟨hlog, hfs, hU, htrue, hfalse⟩ :=
    make_ruleless_concrete_spec env file f₁ path s s' b hT h₁
  have hU2 : s'.upd.is_up_to_date s'.fs path = .ok true := by
    cases b with
    | false =>
      rw [hfalse rfl]
      simpa using hU
    | true =>
      obtain ⟨upd', hS, hs'⟩ := htrue rfl
      obtain ⟨cur, hcur, hupd⟩ := update_state_inv hS
      subst hs' hupd
      simp [UpdateState.is_up_to_date, lookupLU_insertLU, hcur]
  simp only [make, hT, Bool.not_false, if_true]
  rw [hU2]
  simp

/-- Witness for C9: after making an unrecorded ruleless leaf once
(changed = true), making it again reports changed = false. -/
theorem ruleless_concrete_idempotent_witness :
    make ⟨fun _ fs => (true, fs)⟩ ⟨[]⟩ 1 (.Concrete (.Shallow ["a"]))
        ⟨.dir 0 (.cons "a" (.file 5) .nil), ⟨[(.Shallow ["a"], 5)]⟩, []⟩ =
      (.ok false, ⟨.dir 0 (.cons "a" (.file 5) .nil), ⟨[(.Shallow ["a"], 5)]⟩, []⟩) :=
  ruleless_concrete_idempotent ⟨fun _ fs => (true, fs)⟩ ⟨[]⟩ 0 0 (.Shallow ["a"])
    ⟨.dir 0 (.cons "a" (.file 5) .nil), ⟨[]⟩, []⟩
    ⟨.dir 0 (.cons "a" (.file 5) .nil), ⟨[(.Shallow ["a"], 5)]⟩, []⟩ true rfl rfl

/-! ## Claim C10 -/

theorem makeDepsF_all_false_log (mk : Target → BuildState → Except MkError Bool × BuildState)
    (hmk : ∀ t s s', mk t s = (.ok false, s') → s'.log = s.log) :
    ∀ (ds : List Target) (s s' : BuildState) (rs : List Bool),
      makeDepsF mk ds s = (.ok rs, s') → (∀ x ∈ rs, x = false) → s'.log = s.log
  | [], s, s', rs, h, _ => by
    simp only [makeDepsF, Prod.mk.injEq, Except.ok.injEq] at h
    rw [← h.2]
  | d :: ds, s, s', rs, h, hall => by
    simp only [makeDepsF] at h
    cases hm : mk d s with
    | mk r1 st1 =>
    rw [hm] at h
    cases r1 with
    | error e => simp at h
    | ok b =>
      simp only at h
      cases hd : makeDepsF mk ds st1 with
      | mk r2 st2 =>
      rw [hd] at h
      cases r2 with
      | error e => simp at h
      | ok bs =>
        simp only [Prod.mk.injEq, Except.ok.injEq] at h
        obtain ⟨h1, h2⟩ := h
        subst h2
        have hb : b = false := hall b (by rw [← h1]; exact List.mem_cons_self b bs)
        have hbs : ∀ x ∈ bs, x = false := fun x hx =>
          hall x (by rw [← h1]; exact List.mem_cons_of_mem b hx)
        subst hb
        have e1 := hmk d s st1 hm
        have e2 := makeDepsF_all_false_log mk hmk ds st1 st2 bs hd hbs
        rw [e2, e1]

/-- C10: whenever `make` returns changed = false, no external command was
spawned anywhere in that invocation — neither by the top-level call nor by
any recursive dependency call (the spawn log is exactly what it was). -/
theorem ok_false_runs_no_commands (env : Env) (file : MkFile) :
    ∀ (fuel : Nat) (target : Target) (s s' : BuildState),
      make env file fuel target s = (.ok false, s') → s'.log = s.log := by
  intro fuel
  induction fuel with
  | zero =>
    intro t s s' h
    simp [make] at h
  | succ fuel ih =>
    intro t s s' h
    by_cases hT : file.has_target t = true
    · simp only [make, hT, Bool.not_true, Bool.false_eq_true, if_false] at h
      cases hD : makeDepsF (make env file fuel) (file.dependencies t) s with
      | mk r1 s₁ =>
      rw [hD] at h
      cases r1 with
      | error e => simp at h
      | ok rs =>
        simp only at h
        cases hN : needsMaking s₁.fs t rs with
        | true =>
          rw [hN] at h
          simp only [if_true] at h
          cases hR : runCommands env (file.commands t) s₁ with
          | mk r2 s₂ =>
          rw [hR] at h
          cases r2 with
          | error e => simp at h
          | ok u =>
            cases t with
            | Concrete path =>
              simp only at h
              cases hE : path.existsIn s₂.fs <;> rw [hE] at h
              · simp at h
              · simp only [if_true] at h
                cases hS : s₂.upd.update_state s₂.fs path <;> rw [hS] at h <;> simp at h
            | Virtual name => simp at h
        | false =>
          rw [hN] at h
          simp only [Bool.false_eq_true, if_false] at h
          have hany : rs.any (fun x => x) = false := by
            cases t <;> simp only [needsMaking, Bool.or_eq_false_iff] at hN <;> exact hN.1
          have hall : ∀ x ∈ rs, x = false := by
            intro x hx
            have := List.any_eq_false.mp hany x hx
            simpa using this
          have hlog1 : s₁.log = s.log :=
            makeDepsF_all_false_log (make env file fuel) (fun t s s' h => ih t s s' h)
              (file.dependencies t) s s₁ rs hD hall
          cases t with
          | Concrete path =>
            simp only at h
            cases hS : s₁.upd.update_state s₁.fs path <;> rw [hS] at h
            · simp at h
            · simp only [Prod.mk.injEq, Except.ok.injEq] at h
              rw [← h.2]
              exact hlog1
          | Virtual name =>
            simp only [Prod.mk.injEq, Except.ok.injEq] at h
            rw [← h.2]
            exact hlog1
    · have hT' : file.has_target t = false := by simpa using hT
      simp only [make, hT', Bool.not_false, if_true] at h
      cases t with
      | Virtual name => simp at h
      | Concrete path =>
        simp only at h
        cases hU : s.upd.is_up_to_date s.fs path <;> rw [hU] at h
        · simp at h
        · rename_i utd
          cases utd with
          | false =>
            simp only [Bool.not_false, if_true] at h
            cases hS : s.upd.update_state s.fs path <;> rw [hS] at h <;> simp at h
          | true =>
            simp only [Bool.not_true, Bool.false_eq_true, if_false, Prod.mk.injEq,
              Except.ok.injEq] at h
            rw [← h.2]

/-- Witness for C10: an up-to-date ruleless leaf reports changed = false
and the spawn log is untouched. -/
theorem ok_false_runs_no_commands_witness :
    (make ⟨fun _ fs => (true, fs)⟩ ⟨[]⟩ 1 (.Concrete (.Shallow ["a"]))
      ⟨.dir 0 (.cons "a" (.file 5) .nil), ⟨[(.Shallow ["a"], 5)]⟩, ["boot"]⟩).2.log = ["boot"] :=
  ok_false_runs_no_commands ⟨fun _ fs => (true, fs)⟩ ⟨[]⟩ 1 (.Concrete (.Shallow ["a"]))
    ⟨.dir 0 (.cons "a" (.file 5) .nil), ⟨[(.Shallow ["a"], 5)]⟩, ["boot"]⟩
    (make ⟨fun _ fs => (true, fs)⟩ ⟨[]⟩ 1 (.Concrete (.Shallow ["a"]))
      ⟨.dir 0 (.cons "a" (.file 5) .nil), ⟨[(.Shallow ["a"], 5)]⟩, ["boot"]⟩).2 rfl

end Mk
